import Mathlib

/-
Verification of the journaled entity-storage core of the plexus repository.

The definitions below are a shallow embedding of the code in
`src/plexus/src/entity/storage/journal.rs`, `slot.rs`, `hash.rs` and
`src/plexus/src/graph/mutation/vertex.rs`:

- Keys are modelled as `Nat`.  A slot-style backend is modelled as an
  association list together with a key allocator counter `next`; the
  backend's `insert` assigns the key `next` (a fresh key, mirroring the
  generational slot map allocating an unused slot) and bumps the counter.
- `Mutation` mirrors the `Mutation` enum of `journal.rs` (`Insert`,
  `Remove`, `Write`).
- `Journaled` mirrors the `Journaled` struct: a backend `storage`, an
  ordered log of `(key, mutation)` pairs (the `ListOrderedMultimap`:
  pairs are kept in append order; per-key value lists and the
  first-appearance order of keys are recovered by `entryList` and
  `logKeys`), and the synthetic-key state (abstracted as a counter
  `synth`; at journal creation the source sets the synthetic floor to
  `capacity + 1`, which the model renders as `next + 1`).
- Each Rust method that mutates `self` becomes a function returning the
  result together with the new state.
-/

namespace Plexus

/-- Staged mutation, from `enum Mutation` in `journal.rs`. -/
inductive Mutation (α : Type) where
  | insert (entity : α)
  | remove
  | write (entity : α)
deriving DecidableEq

namespace Mutation

/-- Mirrors `Mutation::as_entity`. -/
def asEntity : Mutation α → Option α
  | .insert e => some e
  | .write e => some e
  | .remove => none

/-- Recognizer for `Mutation::Write(_)`, used by `Enumerate::len`. -/
def isWrite : Mutation α → Bool
  | .write _ => true
  | _ => false

/-- Recognizer for `Mutation::Insert(_)`. -/
def isIns : Mutation α → Bool
  | .insert _ => true
  | _ => false

/-- Recognizer for `Mutation::Remove`. -/
def isRem : Mutation α → Bool
  | .remove => true
  | _ => false

end Mutation

/-- Association-list storage backend with a slot-style key allocator
counter.  Models the backend (`HopSlotMap` or `HashMap`) a `Journaled`
wraps: `entries` holds the live `(key, entity)` pairs, `next` is the key
the slot allocator assigns on the following intrinsic insert. -/
structure Backend (α : Type) where
  entries : List (Nat × α)
  next : Nat
deriving DecidableEq

namespace Backend

/-- Mirrors the backend `get` (`HopSlotMap::get` / `HashMap::get`). -/
def get (b : Backend α) (k : Nat) : Option α :=
  (b.entries.find? (fun p => p.1 == k)).map Prod.snd

/-- Backend length (`Enumerate::len` / `Sequence::len` on a backend). -/
def len (b : Backend α) : Nat :=
  b.entries.length

/-- Intrinsic insert (`Insert::insert` on the slot backend): the backend
assigns an unused key and returns it. -/
def insert (b : Backend α) (e : α) : Nat × Backend α :=
  (b.next, ⟨b.entries ++ [(b.next, e)], b.next + 1⟩)

/-- In-place update of the entity stored at key `k`, modelling a write
through `get_mut`. -/
def modify (b : Backend α) (k : Nat) (f : α → α) : Backend α :=
  ⟨b.entries.map (fun p => if p.1 == k then (p.1, f p.2) else p), b.next⟩

/-- Overwrite the occupant at key `k` (the `*occupant = entity` branch of
`Journaled::commit_and_rekey`). -/
def set (b : Backend α) (k : Nat) (e : α) : Backend α :=
  b.modify k (fun _ => e)

/-- Mirrors the backend `remove`: returns the removed occupant, if any. -/
def remove (b : Backend α) (k : Nat) : Option α × Backend α :=
  (b.get k, ⟨b.entries.filter (fun p => !(p.1 == k)), b.next⟩)

/-- Extrinsic insert (`InsertWithKey::insert_with_key` on the hash
backend, `hash.rs`): upsert under a caller-supplied key, returning the
displaced occupant. -/
def insertWithKey (b : Backend α) (k : Nat) (e : α) : Option α × Backend α :=
  match b.get k with
  | some old => (some old, b.set k e)
  | none => (none, ⟨b.entries ++ [(k, e)], b.next⟩)

/-- Well-formedness of a backend: keys are distinct and below the
allocator counter.  Every storage reachable through the public API of
the slot backend satisfies this. -/
def WF (b : Backend α) : Prop :=
  (b.entries.map Prod.fst).Nodup ∧ ∀ k ∈ b.entries.map Prod.fst, k < b.next

end Backend

/-- Per-key list of staged mutations in append order: the value list
`log.get_all(key)` of the `ListOrderedMultimap`. -/
def entryList (log : List (Nat × Mutation α)) (k : Nat) : List (Mutation α) :=
  (log.filter (fun p => p.1 == k)).map Prod.snd

/-- Most recent staged mutation for a key
(`log.get_all(key).next_back()`). -/
def lastMutation (log : List (Nat × Mutation α)) (k : Nat) : Option (Mutation α) :=
  (log.reverse.find? (fun p => p.1 == k)).map Prod.snd

/-- Whether the log holds any entry for `k` — the boolean
`ListOrderedMultimap::append` reports (key already present), also the
key set used by `Enumerate::iter`. -/
def hasLogged (log : List (Nat × Mutation α)) (k : Nat) : Bool :=
  log.any (fun p => p.1 == k)

/-- Distinct log keys in order of first appearance, as iterated by
`log.pairs()` / `log.keys()` of the `ListOrderedMultimap`. -/
def logKeys : List (Nat × Mutation α) → List Nat
  | [] => []
  | (k, _) :: rest => k :: (logKeys rest).filter (fun k2 => !(k2 == k))

/-- Most recent non-`Write` staged mutation for a key: the
`entry.rev().find(|m| !matches!(m, Write))` step of `Enumerate::len` in
`journal.rs`. -/
def lastNonWrite (log : List (Nat × Mutation α)) (k : Nat) : Option (Mutation α) :=
  (entryList log k).reverse.find? (fun m => !m.isWrite)

/-- Journaled storage, from `struct Journaled` in `journal.rs`:
a wrapped backend, the staged log, and the synthetic-key state (the
source's `(floor, index, version)` slot state abstracted as a counter,
see `slotState` below for the faithful `u32` model). -/
structure Journaled (α : Type) where
  storage : Backend α
  log : List (Nat × Mutation α)
  synth : Nat
deriving DecidableEq

/-- Journal creation over a backend: empty log, synthetic keys starting
strictly above every key the backend can currently hold
(`JournalState::state` sets the floor to `capacity + 1`; the model's
capacity proxy is the allocator counter `next`). -/
def journalNew (b : Backend α) : Journaled α :=
  ⟨b, [], b.next + 1⟩

namespace Journaled

/-- Mirrors `Get::get for Journaled`: the most recent staged mutation's
entity when one exists, else the backend occupant. -/
def get (j : Journaled α) (k : Nat) : Option α :=
  match lastMutation j.log k with
  | some m => m.asEntity
  | none => j.storage.get k

/-- Mirrors `Get::get_mut for Journaled`: clone the visible occupant
into a fresh `Write` log entry and hand out a reference into it; absent
keys return `None` and stage nothing. -/
def getMut (j : Journaled α) (k : Nat) : Option α × Journaled α :=
  match j.get k with
  | some e => (some e, ⟨j.storage, j.log ++ [(k, .write e)], j.synth⟩)
  | none => (none, j)

/-- A `get_mut` immediately followed by the caller overwriting the
returned reference with `e`: the staged `Write` entry then holds `e`.
Absent keys stage nothing. -/
def writeThrough (j : Journaled α) (k : Nat) (e : α) : Journaled α :=
  match j.get k with
  | some _ => ⟨j.storage, j.log ++ [(k, .write e)], j.synth⟩
  | none => j

/-- Mirrors `Insert::insert for Journaled`: synthesize a key, stage an
`Insert`, leave the backend untouched. -/
def insert (j : Journaled α) (e : α) : Nat × Journaled α :=
  (j.synth, ⟨j.storage, j.log ++ [(j.synth, .insert e)], j.synth + 1⟩)

/-- Mirrors `InsertWithKey::insert_with_key for Journaled`: the visible
occupant is computed, an `Insert` is staged, and the occupant is
returned only when `log.append` reports the key was already in the log
(`fool::BoolExt::and_then` on the `bool` returned by `append`). -/
def insertWithKey (j : Journaled α) (k : Nat) (e : α) : Option α × Journaled α :=
  let occupant := j.get k
  (if hasLogged j.log k then occupant else none,
    ⟨j.storage, j.log ++ [(k, .insert e)], j.synth⟩)

/-- Mirrors `Remove::remove for Journaled`: stage a `Remove`
unconditionally and return the previously visible occupant. -/
def remove (j : Journaled α) (k : Nat) : Option α × Journaled α :=
  (j.get k, ⟨j.storage, j.log ++ [(k, .remove)], j.synth⟩)

/-- Mirrors `Journaled::abort`: the wrapped backend is returned as is
and the log is discarded. -/
def abort (j : Journaled α) : Backend α :=
  j.storage

/-- Mirrors `Enumerate::len for Journaled`: backend length, plus the
count of keys whose latest non-`Write` entry is an `Insert`, minus the
count of keys whose latest non-`Write` entry is a `Remove` (the source
computes `n + p - q` in `usize`; the model uses truncated `Nat`
subtraction at the one place the source could underflow). -/
def len (j : Journaled α) : Nat :=
  j.storage.len
    + ((logKeys j.log).countP (fun k => (lastNonWrite j.log k).any Mutation.isIns))
    - ((logKeys j.log).countP (fun k => (lastNonWrite j.log k).any Mutation.isRem))

/-- Mirrors `Enumerate::iter for Journaled`: backend pairs whose key is
not in the log, chained with, per log key in first-appearance order, the
latest staged mutation's entity when it has one. -/
def iter (j : Journaled α) : List (Nat × α) :=
  j.storage.entries.filter (fun p => !hasLogged j.log p.1)
    ++ (logKeys j.log).filterMap
        (fun k => (lastMutation j.log k).bind (fun m => m.asEntity.map (fun e => (k, e))))

/-- One step of `Journaled::commit_and_rekey` for a key and its last
staged mutation: `Insert`/`Write` upsert (overwrite the occupant, else
physically insert under a backend-assigned key), `Remove` deletes if
present.  Returns the updated backend and the rekeyed key. -/
def commitStep (b : Backend α) (k : Nat) (m : Mutation α) : Backend α × Nat :=
  match m with
  | .insert e =>
    match b.get k with
    | some _ => (b.set k e, k)
    | none => let r := b.insert e; (r.2, r.1)
  | .write e =>
    match b.get k with
    | some _ => (b.set k e, k)
    | none => let r := b.insert e; (r.2, r.1)
  | .remove => ((b.remove k).2, k)

/-- Mirrors `Journaled::commit_and_rekey`: for each log key in
first-appearance order take only the last staged mutation, apply it via
`commitStep`, and record the `(provisional, resolved)` pair in the
rekeying. -/
def commitAndRekey (j : Journaled α) : Backend α × List (Nat × Nat) :=
  (logKeys j.log).foldl
    (fun acc k =>
      match lastMutation j.log k with
      | some m => let r := commitStep acc.1 k m; (r.1, acc.2 ++ [(k, r.2)])
      | none => acc)
    (j.storage, [])

end Journaled

/-- Error enum of the storage layer, from `enum EntityError` in
`src/plexus/src/entity/mod.rs`. -/
inductive EntityError where
  | EntityNotFound
  | Geometry
deriving DecidableEq

/-- Variant name of an `EntityError`, as written in the source. -/
def EntityError.ident : EntityError → String
  | .EntityNotFound => "EntityNotFound"
  | .Geometry => "Geometry"

/-- Error enum of the graph layer with the variants the sources under
`src/plexus/src/graph` construct (`GraphError::TopologyNotFound`,
`GraphError::TopologyMalformed`). -/
inductive GraphError where
  | TopologyNotFound
  | TopologyMalformed
deriving DecidableEq

/-- Variant name of a `GraphError`, as written in the source. -/
def GraphError.ident : GraphError → String
  | .TopologyNotFound => "TopologyNotFound"
  | .TopologyMalformed => "TopologyMalformed"

/-- Vertex entity: user data plus the optional leading-arc key, the two
pieces of `Vertex` that `graph/mutation/vertex.rs` reads (`vertex.arc`)
and writes. -/
structure Vertex where
  data : Nat
  arc : Option Nat
deriving DecidableEq

/-- Modelled from the spec: `graph/vertex.rs` (defining `Vertex::new`)
is not under `src/`; per the spec, `insert_vertex` "inserts a Vertex
with no leading arc", so a fresh vertex carries `arc = none`. -/
def Vertex.new (d : Nat) : Vertex :=
  ⟨d, none⟩

/-- Mirrors `vertex::insert` in `graph/mutation/vertex.rs` (Immediate
mode): insert `Vertex::new(geometry)` directly into the vertex storage,
returning the backend-assigned key. -/
def insertVertex (s : Backend Vertex) (d : Nat) : Nat × Backend Vertex :=
  s.insert (Vertex.new d)

/-- Mirrors `VertexMutation::connect_outgoing_arc` via
`with_vertex_mut`: set the vertex's leading-arc slot in place, or fail
with `GraphError::TopologyNotFound` when the vertex key is absent. -/
def connectOutgoingArc (s : Backend Vertex) (a ab : Nat) :
    Except GraphError (Backend Vertex) :=
  match s.get a with
  | some _ => .ok (s.modify a (fun v => { v with arc := some ab }))
  | none => .error .TopologyNotFound

/-- Mirrors `VertexMutation::disconnect_outgoing_arc` via
`with_vertex_mut`: clear the vertex's leading-arc slot, returning its
previous value, or fail with `GraphError::TopologyNotFound` when the
vertex key is absent. -/
def disconnectOutgoingArc (s : Backend Vertex) (a : Nat) :
    Except GraphError (Option Nat × Backend Vertex) :=
  match s.get a with
  | some v => .ok (v.arc, s.modify a (fun w => { w with arc := none }))
  | none => .error .TopologyNotFound

/-- Mirrors `Transact::commit for VertexMutation<Immediate<M>>`: if any
vertex visible in the storage has no leading arc the commit fails with
`GraphError::TopologyMalformed`; otherwise the storage is fused into the
committed core (modelled as the storage itself, since the vertex slot is
the only fused slot here). -/
def vertexCommit (s : Backend Vertex) : Except GraphError (Backend Vertex) :=
  if s.entries.any (fun p => p.2.arc.isNone) then .error .TopologyMalformed
  else .ok s

/-- Entity with a user-data part and a structural remainder: `Payload`
(`E::Data`) exposes only `data` to `iter_mut`, while `get_mut` exposes
the whole entity. -/
structure Ent where
  data : Nat
  rest : Nat
deriving DecidableEq

/-- Overwrite the user-data part of a staged mutation's entity, when the
mutation holds one (`Mutation::as_entity_mut` followed by
`Payload::get_mut`). -/
def Mutation.setData (m : Mutation Ent) (d : Nat) : Mutation Ent :=
  match m with
  | .insert e => .insert { e with data := d }
  | .write e => .write { e with data := d }
  | .remove => .remove

/-- Overwrite the user-data part of the first entry for key `k` in the
given (reversed) log. -/
def setFirstEntryData (k d : Nat) : List (Nat × Mutation Ent) → List (Nat × Mutation Ent)
  | [] => []
  | p :: tail =>
    if p.1 == k then (p.1, p.2.setData d) :: tail
    else p :: setFirstEntryData k d tail

/-- Writing `d` through the `&mut E::Data` reference that
`Enumerate::iter_mut for Journaled` yields at key `k`: for keys not in
the log the backend entity is mutated in place (the source notes that
"items yielded by this iterator are not recorded as writes"), for logged
keys the latest log entry's entity is mutated; keys whose latest entry
is a `Remove` are not yielded, so nothing happens for them. -/
def Journaled.iterMutWrite (j : Journaled Ent) (k d : Nat) : Journaled Ent :=
  if hasLogged j.log k then
    ⟨j.storage, (setFirstEntryData k d j.log.reverse).reverse, j.synth⟩
  else if (j.storage.get k).isSome then
    ⟨j.storage.modify k (fun e => { e with data := d }), j.log, j.synth⟩
  else j

/-- One operation of a mutation session over a `Journaled` storage. -/
inductive Op where
  | opInsert (e : Ent)
  | opInsertWithKey (k : Nat) (e : Ent)
  | opRemove (k : Nat)
  | opGetMut (k : Nat)
  | opWrite (k : Nat) (e : Ent)
  | opIterMutWrite (k d : Nat)
deriving DecidableEq

/-- Whether an operation is a write through mutable iteration. -/
def Op.usesIterMut : Op → Bool
  | .opIterMutWrite _ _ => true
  | _ => false

/-- Interpretation of one session operation on the journal state. -/
def applyOp (j : Journaled Ent) : Op → Journaled Ent
  | .opInsert e => (j.insert e).2
  | .opInsertWithKey k e => (j.insertWithKey k e).2
  | .opRemove k => (j.remove k).2
  | .opGetMut k => (j.getMut k).2
  | .opWrite k e => j.writeThrough k e
  | .opIterMutWrite k d => j.iterMutWrite k d

/-- Interpretation of a whole session. -/
def applyOps (j : Journaled Ent) (ops : List Op) : Journaled Ent :=
  ops.foldl applyOp j

/-- Journal states of a slot-backed session in which `remove` (and hence
every staged log key) only ever involves keys visible through the
journal: the initial journal over a well-formed backend, closed under
`insert`, `get_mut`, writes through `get_mut`, and `remove` of visible
keys. -/
inductive Reach : Journaled α → Prop where
  | base (b : Backend α) : b.WF → Reach (journalNew b)
  | stepInsert (j : Journaled α) (e : α) : Reach j → Reach (j.insert e).2
  | stepGetMut (j : Journaled α) (k : Nat) : Reach j → Reach (j.getMut k).2
  | stepWrite (j : Journaled α) (k : Nat) (e : α) : Reach j → Reach (j.writeThrough k e)
  | stepRemove (j : Journaled α) (k : Nat) :
      Reach j → (j.get k).isSome = true → Reach (j.remove k).2

/-- Largest `u32` value, for the slot-state arithmetic of `slot.rs`. -/
def u32Max : Nat := 4294967295

/-- Synthetic-key generation state, from `struct State` in `slot.rs`:
the recorded floor, the next index, and the current generation, all
`u32` values. -/
structure SlotState where
  floor : Nat
  index : Nat
  version : Nat
deriving DecidableEq

/-- Inner slot key data: a `(index, generation)` pair. -/
structure SlotKeyData where
  index : Nat
  version : Nat
deriving DecidableEq

/-- Mirrors `SyntheticKey::synthesize` for slot keys: emit the key
`(index, version)` (the source panics when `version` is zero, modelled
as `none`), then advance `index` by one; on `u32` overflow of the
increment, reset `index` to the recorded floor and raise `version` by
two (`checked_add(2)`; exhaustion of the generation space panics,
modelled as `none`). -/
def synthesize (s : SlotState) : Option (SlotKeyData × SlotState) :=
  if s.version = 0 then none
  else if s.index + 1 ≤ u32Max then
    some (⟨s.index, s.version⟩, ⟨s.floor, s.index + 1, s.version⟩)
  else if s.version + 2 ≤ u32Max then
    some (⟨s.index, s.version⟩, ⟨s.floor, s.floor, s.version + 2⟩)
  else none

/-- Mirrors `JournalState::state for HopSlotMap`: floor and initial
index are `capacity + 1` and the generation starts at `1`; a capacity
whose successor exceeds `u32` panics (`try_from` + `checked_add`),
modelled as `none`. -/
def slotState (capacity : Nat) : Option SlotState :=
  if capacity + 1 ≤ u32Max then some ⟨capacity + 1, capacity + 1, 1⟩ else none

/-- Slot states reachable from `JournalState::state` through
`synthesize`. -/
inductive SlotReach : SlotState → Prop where
  | base (capacity : Nat) (s : SlotState) : slotState capacity = some s → SlotReach s
  | step (s s' : SlotState) (k : SlotKeyData) :
      SlotReach s → synthesize s = some (k, s') → SlotReach s'

/-- Length formula exactly as the specification phrases it, for
comparison with the source's `Journaled.len`: backend length, plus the
number of keys whose latest log entry is an `Insert` for a key absent
from the backend, minus the number of keys whose latest log entry is a
`Remove` for a key present in the backend. -/
def claimedLen (j : Journaled α) : Nat :=
  j.storage.len
    + ((logKeys j.log).countP
        (fun k => (lastMutation j.log k).any Mutation.isIns && (j.storage.get k).isNone))
    - ((logKeys j.log).countP
        (fun k => (lastMutation j.log k).any Mutation.isRem && (j.storage.get k).isSome))

/-- Most recent non-`Write` staged mutation for a key, read off the
whole log rather than the per-key value list; `lastNonWrite` is proved
equal to it below. -/
def lastStagedNonWrite (log : List (Nat × Mutation α)) (k : Nat) : Option (Mutation α) :=
  (log.reverse.find? (fun p => p.1 == k && !p.2.isWrite)).map Prod.snd

/-- Journal holding the staged sequence `Insert(k, v1)`, `Write(k, v2)`,
`Write(k, v3)` over a backend, as in the last-write-wins scenario. -/
def stagedThrice (b : Backend α) (k : Nat) (v1 v2 v3 : α) : Journaled α :=
  ⟨b, [(k, .insert v1), (k, .write v2), (k, .write v3)], b.next + 1⟩

/-- Backend produced by the commit fold of `commit_and_rekey`, without
the rekeying accumulator. -/
def commitFold (log : List (Nat × Mutation α)) (b : Backend α) (L : List Nat) : Backend α :=
  L.foldl
    (fun acc k =>
      match lastMutation log k with
      | some m => (Journaled.commitStep acc k m).1
      | none => acc)
    b

/-- Session invariant of a slot-backed journal whose staged keys were
all visible when staged: the backend is well-formed and the log keys
absent from the backend are exactly the synthesized keys, in synthesis
order. -/
def Inv (j : Journaled α) : Prop :=
  j.storage.WF ∧
    j.storage.next < j.synth ∧
    (logKeys j.log).filter (fun k => (j.storage.get k).isNone)
      = List.range' (j.storage.next + 1) (j.synth - (j.storage.next + 1))

/-- Fixture journal for the read contract: backend holds key 1, the log
stages an insert followed by a remove at key 0. -/
def jFixGet : Journaled Nat :=
  ⟨⟨[(1, 10)], 2⟩, [(0, Mutation.insert 7), (0, Mutation.remove)], 3⟩

/-- Fixture backend for the displaced-occupant scenario. -/
def bFixIwk : Backend Ent :=
  ⟨[(0, ⟨5, 0⟩)], 1⟩

/-- Fixture journal over `bFixIwk` with an empty log. -/
def jFixIwk : Journaled Ent :=
  journalNew bFixIwk

/-- Fixture vertex storage with a vertex lacking a leading arc. -/
def sFixBad : Backend Vertex :=
  ⟨[(0, ⟨3, none⟩)], 1⟩

/-- Fixture vertex storage whose single vertex has a leading arc. -/
def sFixGood : Backend Vertex :=
  ⟨[(0, ⟨3, some 9⟩)], 1⟩

/-- Fixture empty vertex storage. -/
def sFixEmpty : Backend Vertex :=
  ⟨[], 0⟩

/-- Fixture backend for the abort scenario: one entity with user data 5. -/
def bFixAbort : Backend Ent :=
  ⟨[(0, ⟨5, 0⟩)], 1⟩

/-- Fixture journal reached by an insert immediately followed by a
`get_mut` of the synthesized key (staging `Insert` then `Write`). -/
def jFixLen : Journaled Nat :=
  ((journalNew (⟨[], 0⟩ : Backend Nat)).insert 7).2.writeThrough 1 7

/-- Fixture journal reached by removing two stale (never-issued) keys
and then inserting three entities, so that the synthesized keys collide
with the keys the backend assigns at commit time. -/
def jFixCollide : Journaled Nat :=
  (((((journalNew (⟨[], 0⟩ : Backend Nat)).remove 2).2.remove 3).2.insert 10).2.insert 11).2.insert 12
    |>.2

/-- Fixture backend for the commit-count witness. -/
def bFixCount : Backend Nat :=
  ⟨[(0, 5)], 1⟩

/-- Fixture journal for the commit-count witness: an insert followed by
a remove of the (visible) synthesized key 2. -/
def jFixCount : Journaled Nat :=
  (((journalNew bFixCount).insert 7).2.remove 2).2

/-- C5: `get` on a journaled storage returns the most recent staged
mutation's entity when the key has any staged mutation, `none` when that
most recent mutation is a `Remove`, and otherwise returns exactly what
the underlying backend's `get` returns. -/
theorem journaled_get_contract (j : Journaled α) (k : Nat) :
    (∀ m : Mutation α, lastMutation j.log k = some m → j.get k = m.asEntity)
      ∧ (lastMutation j.log k = some Mutation.remove → j.get k = none)
      ∧ (lastMutation j.log k = none → j.get k = j.storage.get k) := by
  refine ⟨fun m h => ?_, fun h => ?_, fun h => ?_⟩ <;>
    simp [Journaled.get, h, Mutation.asEntity]

/-- Witness for the read contract: in `jFixGet` key 0 is staged and
last removed, key 1 lives only in the backend. -/
theorem journaled_get_contract_witness :
    Journaled.get jFixGet 0 = none ∧ Journaled.get jFixGet 1 = some 10 :=
  ⟨(journaled_get_contract jFixGet 0).2.1 (by decide),
    ((journaled_get_contract jFixGet 1).2.2 (by decide)).trans (by decide)⟩

/-- C10: `get_mut` on a key visible through neither the log nor the
backend returns `none` and leaves the journal unchanged — so `get`,
`len`, `iter` and the commit result are exactly as if the call had never
happened — while on a visible key it stages a `Write` entry cloned from
the currently visible value. -/
theorem journaled_getMut_contract (j : Journaled α) (k : Nat) :
    (j.get k = none →
      j.getMut k = (none, j)
        ∧ ((j.getMut k).2).len = j.len
        ∧ ((j.getMut k).2).iter = j.iter
        ∧ ((j.getMut k).2).commitAndRekey = j.commitAndRekey
        ∧ ∀ k2, ((j.getMut k).2).get k2 = j.get k2)
      ∧ (∀ e : α, j.get k = some e →
          j.getMut k = (some e, ⟨j.storage, j.log ++ [(k, Mutation.write e)], j.synth⟩)) := by
  constructor
  · intro h
    have h2 : j.getMut k = (none, j) := by simp [Journaled.getMut, h]
    exact ⟨h2, by rw [h2], by rw [h2], by rw [h2], fun k2 => by rw [h2]⟩
  · intro e h
    simp [Journaled.getMut, h]

/-- Witness for the `get_mut` contract: in `jFixGet` key 0 is invisible
(staged `Remove`), key 1 is visible through the backend. -/
theorem journaled_getMut_contract_witness :
    Journaled.getMut jFixGet 0 = (none, jFixGet)
      ∧ Journaled.getMut jFixGet 1
        = (some 10, ⟨jFixGet.storage, jFixGet.log ++ [(1, Mutation.write 10)], jFixGet.synth⟩) :=
  ⟨((journaled_getMut_contract jFixGet 0).1 (by decide)).1,
    (journaled_getMut_contract jFixGet 1).2 10 (by decide)⟩

/-- C9: over a backend holding key 0 (occupant `⟨5, 0⟩`) and an empty
log, the visible occupant at key 0 exists, yet the journal's
`insert_with_key(0, ⟨6, 0⟩)` returns `none`: the occupant computed by
`get` is discarded because `log.append` reports that the key was not yet
in the log.  An `Insert` is staged and the backend is untouched, and the
hash backend's own `insert_with_key` does return the displaced occupant
on the same input. -/
theorem insertWithKey_drops_backend_occupant :
    Journaled.get jFixIwk 0 = some ⟨5, 0⟩
      ∧ (Journaled.insertWithKey jFixIwk 0 ⟨6, 0⟩).1 = none
      ∧ (Journaled.insertWithKey jFixIwk 0 ⟨6, 0⟩).2.log = [(0, Mutation.insert ⟨6, 0⟩)]
      ∧ (Journaled.insertWithKey jFixIwk 0 ⟨6, 0⟩).2.storage = bFixIwk
      ∧ (Backend.insertWithKey bFixIwk 0 ⟨6, 0⟩).1 = some ⟨5, 0⟩ := by
  refine ⟨?_, ?_, ?_, ?_, ?_⟩ <;> decide

/-- C2: commit of a vertex mutation fails with
`GraphError::TopologyMalformed` whenever some visible vertex lacks a
leading arc — in particular always after inserting a vertex whose arc
was never connected — and succeeds with the core fused from the storage
when every visible vertex has one. -/
theorem vertexCommit_contract (s : Backend Vertex) (d : Nat) :
    ((∃ p ∈ s.entries, p.2.arc = none) → vertexCommit s = .error .TopologyMalformed)
      ∧ ((∀ p ∈ s.entries, p.2.arc ≠ none) → vertexCommit s = .ok s)
      ∧ vertexCommit (insertVertex s d).2 = .error .TopologyMalformed := by
  refine ⟨fun h => ?_, fun h => ?_, ?_⟩
  · obtain ⟨p, hp, ha⟩ := h
    have hany : s.entries.any (fun p => p.2.arc.isNone) = true :=
      List.any_eq_true.mpr ⟨p, hp, by simp [ha]⟩
    simp [vertexCommit, hany]
  · have hany : s.entries.any (fun p => p.2.arc.isNone) = false := by
      rw [List.any_eq_false]
      intro p hp
      simp [Option.isNone_iff_eq_none]
      exact h p hp
    simp [vertexCommit, hany]
  · simp [vertexCommit, insertVertex, Backend.insert, Vertex.new]

/-- Witness for the vertex-commit contract at two concrete storages. -/
theorem vertexCommit_contract_witness :
    vertexCommit sFixBad = .error .TopologyMalformed ∧ vertexCommit sFixGood = .ok sFixGood :=
  ⟨(vertexCommit_contract sFixBad 0).1 ⟨(0, ⟨3, none⟩), by decide, rfl⟩,
    (vertexCommit_contract sFixGood 0).2.1 (by decide)⟩

/-- C1 (counterexample): a session consisting of one write through
mutable iteration mutates the backend in place, so `abort` does not
return the original backend content. -/
theorem iterMut_write_survives_abort :
    (applyOps (journalNew bFixAbort) [Op.opIterMutWrite 0 7]).abort ≠ bFixAbort
      ∧ (applyOps (journalNew bFixAbort) [Op.opIterMutWrite 0 7]).abort
        = ⟨[(0, ⟨7, 0⟩)], 1⟩ := by
  refine ⟨?_, ?_⟩ <;> decide

/-- C3 (counterexample): in the reachable state `jFixLen` (an insert
followed by a `get_mut` of the synthesized key, staging `Insert` then
`Write`), the source's `len` is 1 — the entity is new and visible — but
the claimed formula, which looks only at the latest log entry (here a
`Write`), yields 0. -/
theorem len_differs_from_claimed_formula :
    Journaled.len jFixLen = 1 ∧ claimedLen jFixLen = 0 := by
  refine ⟨?_, ?_⟩ <;> decide

/-- C4 (counterexample): in the reachable state `jFixCollide` — two
removes of stale keys followed by three inserts — the journal's `iter`
yields 3 entries while the backend holds only 2 after
`commit_and_rekey`: the keys the backend assigns at commit collide with
synthesized keys processed later. -/
theorem iter_count_diverges_after_collision :
    (Journaled.iter jFixCollide).length = 3
      ∧ ((Journaled.commitAndRekey jFixCollide).1).len = 2 := by
  refine ⟨?_, ?_⟩ <;> decide

/-- C6 (counterexample): staging `Insert(5, 1)`, `Write(5, 2)`,
`Write(5, 3)` over an empty backend and committing leaves nothing at
key 5 — the entity lands under the backend-assigned key 0 recorded in
the rekeying — so `backend.get(5)` is `none`, not `some 3`. -/
theorem commit_rekeys_synthetic_key :
    (Journaled.commitAndRekey (stagedThrice (⟨[], 0⟩ : Backend Nat) 5 1 2 3)).1.get 5 = none
      ∧ (Journaled.commitAndRekey (stagedThrice (⟨[], 0⟩ : Backend Nat) 5 1 2 3)).2 = [(5, 0)]
      ∧ (Journaled.commitAndRekey (stagedThrice (⟨[], 0⟩ : Backend Nat) 5 1 2 3)).1.get 0
        = some 3 := by
  refine ⟨?_, ?_, ?_⟩ <;> decide

/-- C7 (counterexample): on an absent vertex key the connect and
disconnect primitives fail with `GraphError::TopologyNotFound`; the
variant constructed here is not the `EntityNotFound` variant (that name
belongs to `EntityError`, which this path never produces). -/
theorem connect_error_is_TopologyNotFound :
    connectOutgoingArc sFixEmpty 0 1 = .error .TopologyNotFound
      ∧ disconnectOutgoingArc sFixEmpty 0 = .error .TopologyNotFound
      ∧ GraphError.ident .TopologyNotFound ≠ EntityError.ident .EntityNotFound := by
  refine ⟨rfl, rfl, by decide⟩

/-- Helper: storage is untouched by every session operation other than
a write through mutable iteration. -/
theorem applyOp_storage (j : Journaled Ent) (op : Op) (h : op.usesIterMut = false) :
    (applyOp j op).storage = j.storage := by
  cases op with
  | opInsert e => rfl
  | opInsertWithKey k e => rfl
  | opRemove k => rfl
  | opGetMut k =>
    cases hg : j.get k <;> simp [applyOp, Journaled.getMut, hg]
  | opWrite k e =>
    cases hg : j.get k <;> simp [applyOp, Journaled.writeThrough, hg]
  | opIterMutWrite k d => simp [Op.usesIterMut] at h

/-- C1 (amended): for any session built from `insert`,
`insert_with_key`, `remove` and `get_mut` operations — all of which only
touch the log — `abort` returns the backend exactly as it was when the
journal was created; writes through mutable iteration are excluded, as
they mutate unlogged backend entries in place and survive `abort`. -/
theorem abort_restores_backend (b : Backend Ent) (ops : List Op)
    (h : ∀ op ∈ ops, op.usesIterMut = false) :
    (applyOps (journalNew b) ops).abort = b := by
  have key : ∀ (ops2 : List Op) (j : Journaled Ent),
      (∀ op ∈ ops2, op.usesIterMut = false) → (applyOps j ops2).storage = j.storage := by
    intro ops2
    induction ops2 with
    | nil => intro j _; rfl
    | cons op t ih =>
      intro j hall
      have h2 : (applyOps (applyOp j op) t).storage = (applyOp j op).storage :=
        ih (applyOp j op) (fun o ho => hall o (List.mem_cons_of_mem _ ho))
      show (applyOps (applyOp j op) t).storage = j.storage
      exact h2.trans (applyOp_storage j op (hall op (List.mem_cons_self _ _)))
  exact key ops (journalNew b) h

/-- Witness for the amended abort property on a log-only session. -/
theorem abort_restores_backend_witness :
    (applyOps (journalNew bFixAbort)
        [Op.opInsert ⟨1, 1⟩, Op.opGetMut 0, Op.opRemove 0, Op.opWrite 2 ⟨9, 9⟩]).abort
      = bFixAbort :=
  abort_restores_backend bFixAbort _ (by decide)

/-- Helper: searching the entity list of one key for the last non-write
entry is the same as searching the whole (already reversed) log. -/
theorem find?_map_snd_filter (l : List (Nat × Mutation α)) (k : Nat) :
    ((l.filter (fun p => p.1 == k)).map Prod.snd).find? (fun m => !m.isWrite)
      = (l.find? (fun p => p.1 == k && !p.2.isWrite)).map Prod.snd := by
  induction l with
  | nil => rfl
  | cons p t ih =>
    by_cases h1 : p.1 = k
    · cases h2 : p.2.isWrite <;>
        simp [List.filter_cons, List.find?_cons, h1, h2, ih]
    · simp [List.filter_cons, List.find?_cons, h1, ih]

/-- Helper: the two formulations of the latest non-`Write` staged
mutation agree. -/
theorem lastNonWrite_eq (log : List (Nat × Mutation α)) (k : Nat) :
    lastNonWrite log k = lastStagedNonWrite log k := by
  unfold lastNonWrite lastStagedNonWrite entryList
  rw [← List.map_reverse, ← List.filter_reverse]
  exact find?_map_snd_filter log.reverse k

/-- C3 (amended): the journal's `len` is the backend length, plus the
number of log keys whose latest non-`Write` staged mutation is an
`Insert`, minus the number of log keys whose latest non-`Write` staged
mutation is a `Remove` (truncated subtraction) — presence of the key in
the backend is not consulted. -/
theorem len_counts_latest_non_write (j : Journaled α) :
    j.len = j.storage.len
        + ((logKeys j.log).countP (fun k => (lastStagedNonWrite j.log k).any Mutation.isIns))
        - ((logKeys j.log).countP (fun k => (lastStagedNonWrite j.log k).any Mutation.isRem)) := by
  simp only [Journaled.len, lastNonWrite_eq]

/-- Helper: `get` applied after an in-place `modify`. -/
theorem find?_key_map_modify (l : List (Nat × α)) (a k : Nat) (f : α → α) :
    ((l.map (fun p => if p.1 == a then (p.1, f p.2) else p)).find?
        (fun p => p.1 == k)).map Prod.snd
      = if k = a then ((l.find? (fun p => p.1 == k)).map Prod.snd).map f
        else (l.find? (fun p => p.1 == k)).map Prod.snd := by
  induction l with
  | nil => by_cases h : k = a <;> simp [h]
  | cons p t ih =>
    by_cases h1 : p.1 = a
    · have hhead : (if (p.1 == a) = true then (p.1, f p.2) else p) = (p.1, f p.2) := by
        simp [h1]
      by_cases h2 : p.1 = k
      · have hka : k = a := by omega
        rw [List.map_cons, hhead, List.find?_cons_of_pos _ (by simp [h2]),
          List.find?_cons_of_pos _ (by simp [h2])]
        simp [hka]
      · rw [List.map_cons, hhead, List.find?_cons_of_neg _ (by simp [h2]),
          List.find?_cons_of_neg _ (by simp [h2])]
        exact ih
    · have hhead : (if (p.1 == a) = true then (p.1, f p.2) else p) = p := by
        simp [h1]
      by_cases h2 : p.1 = k
      · have hka : ¬k = a := by omega
        rw [List.map_cons, hhead, List.find?_cons_of_pos _ (by simp [h2]),
          List.find?_cons_of_pos _ (by simp [h2])]
        simp [hka]
      · rw [List.map_cons, hhead, List.find?_cons_of_neg _ (by simp [h2]),
          List.find?_cons_of_neg _ (by simp [h2])]
        exact ih

/-- Helper: `Backend.get` after `Backend.modify`. -/
theorem Backend.get_modify (b : Backend α) (a : Nat) (f : α → α) (k : Nat) :
    (b.modify a f).get k = if k = a then (b.get k).map f else b.get k := by
  unfold Backend.get Backend.modify
  simpa using find?_key_map_modify b.entries a k f

/-- C7 (amended): for an absent vertex key, `connect_outgoing_arc` and
`disconnect_outgoing_arc` fail with `GraphError::TopologyNotFound`; for
a present vertex, `connect_outgoing_arc` sets the leading-arc slot of
that vertex in place (other keys untouched) and succeeds, and
`disconnect_outgoing_arc` clears the slot and returns its previous
value. -/
theorem connect_disconnect_contract (s : Backend Vertex) (a ab : Nat) :
    (s.get a = none →
      connectOutgoingArc s a ab = .error .TopologyNotFound
        ∧ disconnectOutgoingArc s a = .error .TopologyNotFound)
      ∧ ∀ v : Vertex, s.get a = some v →
          (∃ s2, connectOutgoingArc s a ab = .ok s2
            ∧ s2.get a = some { v with arc := some ab }
            ∧ ∀ k2, k2 ≠ a → s2.get k2 = s.get k2)
          ∧ ∃ s3, disconnectOutgoingArc s a = .ok (v.arc, s3)
            ∧ s3.get a = some { v with arc := none }
            ∧ ∀ k2, k2 ≠ a → s3.get k2 = s.get k2 := by
  constructor
  · intro h
    constructor <;> simp [connectOutgoingArc, disconnectOutgoingArc, h]
  · intro v h
    constructor
    · refine ⟨s.modify a (fun w => { w with arc := some ab }), ?_, ?_, ?_⟩
      · simp [connectOutgoingArc, h]
      · rw [Backend.get_modify]
        simp [h]
      · intro k2 hk
        rw [Backend.get_modify]
        simp [hk]
    · refine ⟨s.modify a (fun w => { w with arc := none }), ?_, ?_, ?_⟩
      · simp [disconnectOutgoingArc, h]
      · rw [Backend.get_modify]
        simp [h]
      · intro k2 hk
        rw [Backend.get_modify]
        simp [hk]

/-- Witness for the connect/disconnect contract at concrete storages. -/
theorem connect_disconnect_contract_witness :
    connectOutgoingArc sFixEmpty 5 1 = .error .TopologyNotFound
      ∧ ∃ s2, connectOutgoingArc sFixGood 0 4 = .ok s2 ∧ s2.get 0 = some ⟨3, some 4⟩ := by
  constructor
  · exact ((connect_disconnect_contract sFixEmpty 5 1).1 (by decide)).1
  · obtain ⟨s2, h1, h2, h3⟩ :=
      ((connect_disconnect_contract sFixGood 0 4).2 ⟨3, some 9⟩ (by decide)).1
    exact ⟨s2, h1, h2⟩

/-- Helper: `get` of a freshly appended entry whose key no existing
entry carries. -/
theorem Backend.get_insert_self (b : Backend α) (e : α)
    (h : ∀ p ∈ b.entries, p.1 ≠ b.next) :
    ((b.insert e).2).get b.next = some e := by
  unfold Backend.get Backend.insert
  rw [List.find?_append]
  have h1 : b.entries.find? (fun p => p.1 == b.next) = none := by
    rw [List.find?_eq_none]
    intro p hp
    simp [h p hp]
  simp [h1]

/-- C6 (amended): committing the staged sequence `Insert(k, v1)`,
`Write(k, v2)`, `Write(k, v3)` applies only the last staged mutation:
the rekeying maps `k` to a single resolved key under which the backend
then holds `v3`; when `k` was already occupied in the backend the
resolved key is `k` itself, so `backend.get(k) = some v3`. -/
theorem commit_last_write_wins (b : Backend α) (k : Nat) (v1 v2 v3 : α) (hwf : b.WF) :
    ∃ k2, (Journaled.commitAndRekey (stagedThrice b k v1 v2 v3)).2 = [(k, k2)]
      ∧ (Journaled.commitAndRekey (stagedThrice b k v1 v2 v3)).1.get k2 = some v3
      ∧ ((b.get k).isSome = true → k2 = k) := by
  have hkeys : logKeys [(k, (Mutation.insert v1 : Mutation α)), (k, .write v2), (k, .write v3)]
      = [k] := by
    simp [logKeys]
  have hlast : lastMutation [(k, (Mutation.insert v1 : Mutation α)), (k, .write v2), (k, .write v3)] k
      = some (.write v3) := by
    simp [lastMutation]
  simp only [stagedThrice, Journaled.commitAndRekey]
  rw [hkeys]
  simp only [List.foldl_cons, List.foldl_nil, hlast]
  cases hg : b.get k with
  | some v =>
    refine ⟨k, ?_, ?_, fun _ => rfl⟩
    · simp [Journaled.commitStep, hg]
    · simp only [Journaled.commitStep, hg]
      simp only [Backend.set]
      rw [Backend.get_modify]
      simp [hg]
  | none =>
    refine ⟨b.next, ?_, ?_, fun hc => by simp [hg] at hc⟩
    · simp [Journaled.commitStep, hg, Backend.insert]
    · simp only [Journaled.commitStep, hg]
      exact Backend.get_insert_self b v3
        (fun p hp => Nat.ne_of_lt (hwf.2 p.1 (List.mem_map_of_mem _ hp)))

/-- Witness for last-write-wins over a backend already occupying the
staged key. -/
theorem commit_last_write_wins_witness :
    ∃ k2,
      (Journaled.commitAndRekey (stagedThrice (⟨[(4, 9)], 5⟩ : Backend Nat) 4 1 2 3)).2
          = [(4, k2)]
        ∧ (Journaled.commitAndRekey (stagedThrice (⟨[(4, 9)], 5⟩ : Backend Nat) 4 1 2 3)).1.get k2
          = some 3
        ∧ ((Backend.get (⟨[(4, 9)], 5⟩ : Backend Nat) 4).isSome = true → k2 = 4) :=
  commit_last_write_wins ⟨[(4, 9)], 5⟩ 4 1 2 3 ⟨by decide, by decide⟩

/-- Helper: a successful `synthesize` emits the key built from the
current index and generation. -/
theorem synthesize_key (s : SlotState) (k : SlotKeyData) (s1 : SlotState)
    (h : synthesize s = some (k, s1)) : k.index = s.index ∧ k.version = s.version := by
  unfold synthesize at h
  by_cases h0 : s.version = 0
  · simp [h0] at h
  · by_cases hi : s.index + 1 ≤ u32Max
    · simp [h0, hi] at h
      exact ⟨(congrArg SlotKeyData.index h.1.symm), (congrArg SlotKeyData.version h.1.symm)⟩
    · by_cases hv : s.version + 2 ≤ u32Max
      · simp [h0, hi, hv] at h
        exact ⟨(congrArg SlotKeyData.index h.1.symm), (congrArg SlotKeyData.version h.1.symm)⟩
      · simp [h0, hi, hv] at h

/-- C8: synthetic slot-key generation: the first synthesized key's index
is `capacity + 1` (strictly above the backend capacity) with generation
1; successive keys increment the index by one while the generation is
unchanged; when the 32-bit index overflows, the index resets to the
recorded floor and the generation grows by exactly 2, so on every
reachable state the generation is odd and never 0; exhausting the
generation space yields no key at all (the source panics rather than
returning an error). -/
theorem synthetic_key_contract :
    (∀ capacity s0, slotState capacity = some s0 →
        ∃ k s1, synthesize s0 = some (k, s1) ∧ capacity < k.index ∧ k.index = capacity + 1
          ∧ k.version = 1)
      ∧ (∀ s k s1 k2 s2, synthesize s = some (k, s1) → synthesize s1 = some (k2, s2) →
          k.index < u32Max → k2.index = k.index + 1 ∧ k2.version = k.version)
      ∧ (∀ s k s1, synthesize s = some (k, s1) → k.index = u32Max →
          s1.index = s.floor ∧ s1.version = s.version + 2)
      ∧ (∀ s, SlotReach s → s.version % 2 = 1 ∧ s.version ≠ 0)
      ∧ (∀ s, s.version ≠ 0 → u32Max ≤ s.index → u32Max < s.version + 2 →
          synthesize s = none) := by
  refine ⟨?_, ?_, ?_, ?_, ?_⟩
  · intro capacity s0 h
    unfold slotState at h
    by_cases hc : capacity + 1 ≤ u32Max
    · simp [hc] at h
      subst h
      by_cases hi : capacity + 1 + 1 ≤ u32Max
      · refine ⟨⟨capacity + 1, 1⟩, ⟨capacity + 1, capacity + 2, 1⟩, ?_,
          Nat.lt_succ_self capacity, rfl, rfl⟩
        unfold synthesize
        rw [if_neg (by simp), if_pos hi]
      · refine ⟨⟨capacity + 1, 1⟩, ⟨capacity + 1, capacity + 1, 3⟩, ?_,
          Nat.lt_succ_self capacity, rfl, rfl⟩
        unfold synthesize
        rw [if_neg (by simp), if_neg hi, if_pos (show (1 : Nat) + 2 ≤ u32Max by decide)]
    · simp [hc] at h
  · intro s k s1 k2 s2 h1 h2 hik
    obtain ⟨hki, hkv⟩ := synthesize_key s k s1 h1
    obtain ⟨hki2, hkv2⟩ := synthesize_key s1 k2 s2 h2
    have hv0 : ¬s.version = 0 := by
      intro h0
      simp [synthesize, h0] at h1
    have hi : s.index + 1 ≤ u32Max := by omega
    have hs1 : s1 = ⟨s.floor, s.index + 1, s.version⟩ := by
      simp [synthesize, hv0, hi] at h1
      exact h1.2.symm
    rw [hs1] at hki2 hkv2
    exact ⟨by rw [hki2, hki], by rw [hkv2, hkv]⟩
  · intro s k s1 h hk
    obtain ⟨hki, _⟩ := synthesize_key s k s1 h
    have hv0 : ¬s.version = 0 := by
      intro h0
      simp [synthesize, h0] at h
    have hi : ¬s.index + 1 ≤ u32Max := by omega
    by_cases hv : s.version + 2 ≤ u32Max
    · simp [synthesize, hv0, hi, hv] at h
      rw [← h.2]
      exact ⟨rfl, rfl⟩
    · simp [synthesize, hv0, hi, hv] at h
  · intro s hs
    induction hs with
    | base c s0 h =>
      unfold slotState at h
      by_cases hc : c + 1 ≤ u32Max
      · simp [hc] at h
        subst h
        exact ⟨rfl, Nat.one_ne_zero⟩
      · simp [hc] at h
    | step s s' k hs hsyn ih =>
      have hv0 : ¬s.version = 0 := fun h0 => by simp [synthesize, h0] at hsyn
      by_cases hi : s.index + 1 ≤ u32Max
      · simp [synthesize, hv0, hi] at hsyn
        rw [← hsyn.2]
        exact ih
      · by_cases hv : s.version + 2 ≤ u32Max
        · simp [synthesize, hv0, hi, hv] at hsyn
          rw [← hsyn.2]
          constructor
          · simp
            omega
          · simp
        · simp [synthesize, hv0, hi, hv] at hsyn
  · intro s h0 hi hv
    have hi2 : ¬s.index + 1 ≤ u32Max := by omega
    have hv2 : ¬s.version + 2 ≤ u32Max := by omega
    simp [synthesize, h0, hi2, hv2]

/-- Witness for the synthetic-key contract: a concrete increment step
and a concrete reachable state with odd generation. -/
theorem synthetic_key_contract_witness :
    SlotKeyData.index ⟨5, 1⟩ = SlotKeyData.index ⟨4, 1⟩ + 1
      ∧ SlotState.version ⟨4, 4, 1⟩ % 2 = 1 := by
  constructor
  · exact (synthetic_key_contract.2.1 ⟨4, 4, 1⟩ ⟨4, 1⟩ ⟨4, 5, 1⟩ ⟨5, 1⟩ ⟨4, 6, 1⟩
      (by decide) (by decide) (by decide)).1
  · exact (synthetic_key_contract.2.2.2.1 ⟨4, 4, 1⟩ (SlotReach.base 3 ⟨4, 4, 1⟩ (by decide))).1

/-- Helper: membership in the first-appearance key list is membership
among the log's keys. -/
theorem mem_logKeys (log : List (Nat × Mutation α)) (k : Nat) :
    k ∈ logKeys log ↔ k ∈ log.map Prod.fst := by
  induction log with
  | nil => simp [logKeys]
  | cons p t ih =>
    obtain ⟨k0, m0⟩ := p
    simp only [logKeys, List.map_cons, List.mem_cons, List.mem_filter, ih]
    by_cases h : k = k0 <;> simp [h]

/-- Helper: the first-appearance key list has no duplicates. -/
theorem logKeys_nodup (log : List (Nat × Mutation α)) : (logKeys log).Nodup := by
  induction log with
  | nil => simp [logKeys]
  | cons p t ih =>
    obtain ⟨k0, m0⟩ := p
    simp only [logKeys]
    refine List.nodup_cons.mpr ⟨?_, ih.filter _⟩
    intro hmem
    have h2 := (List.mem_filter.mp hmem).2
    simp at h2

/-- Helper: every key of the log has a latest staged mutation. -/
theorem lastMutation_isSome_of_mem (log : List (Nat × Mutation α)) (k : Nat)
    (h : k ∈ logKeys log) : (lastMutation log k).isSome = true := by
  rw [mem_logKeys] at h
  obtain ⟨p, hp, hk⟩ := List.mem_map.mp h
  unfold lastMutation
  rw [Option.isSome_map']
  exact List.find?_isSome.mpr ⟨p, List.mem_reverse.mpr hp, by simp [hk]⟩

/-- Helper: a key outside the log has no staged mutation. -/
theorem lastMutation_eq_none_of_not_mem (log : List (Nat × Mutation α)) (k : Nat)
    (h : k ∉ logKeys log) : lastMutation log k = none := by
  cases hlm : lastMutation log k with
  | none => rfl
  | some m =>
    exfalso
    apply h
    rw [mem_logKeys]
    unfold lastMutation at hlm
    obtain ⟨p, hp, hv⟩ := Option.map_eq_some'.mp hlm
    have hmem := List.mem_reverse.mp (List.mem_of_find?_eq_some hp)
    have hkey := List.find?_some hp
    simp at hkey
    exact List.mem_map.mpr ⟨p, hmem, hkey⟩

/-- Helper: the boolean key test of the log agrees with membership in
the first-appearance key list. -/
theorem hasLogged_eq (log : List (Nat × Mutation α)) (x : Nat) :
    hasLogged log x = decide (x ∈ logKeys log) := by
  by_cases h : x ∈ logKeys log
  · have h2 := h
    rw [mem_logKeys] at h2
    obtain ⟨p, hp, hk⟩ := List.mem_map.mp h2
    have : hasLogged log x = true := List.any_eq_true.mpr ⟨p, hp, by simp [hk]⟩
    simp [this, h]
  · have : hasLogged log x = false := by
      rw [hasLogged, List.any_eq_false]
      intro p hp
      simp only [beq_iff_eq]
      intro he
      exact h ((mem_logKeys log x).mpr (List.mem_map.mpr ⟨p, hp, he⟩))
    simp [this, h]

/-- Helper: an absent key is one that no entry carries. -/
theorem Backend.get_eq_none_iff (b : Backend α) (k : Nat) :
    b.get k = none ↔ ∀ p ∈ b.entries, p.1 ≠ k := by
  unfold Backend.get
  rw [Option.map_eq_none', List.find?_eq_none]
  constructor
  · intro h p hp he
    have h2 := h p hp
    simp [he] at h2
  · intro h p hp
    simp [h p hp]

/-- Helper: a present key is among the entry keys. -/
theorem Backend.get_mem_keys (b : Backend α) (k : Nat) (v : α) (h : b.get k = some v) :
    k ∈ b.entries.map Prod.fst := by
  unfold Backend.get at h
  obtain ⟨p, hp, hv⟩ := Option.map_eq_some'.mp h
  have hmem := List.mem_of_find?_eq_some hp
  have hkey := List.find?_some hp
  simp at hkey
  exact List.mem_map.mpr ⟨p, hmem, hkey⟩

/-- Helper: searching after erasing one key. -/
theorem find?_filter_ne (l : List (Nat × α)) (k k2 : Nat) :
    (l.filter (fun p => !(p.1 == k))).find? (fun p => p.1 == k2)
      = if k2 = k then none else l.find? (fun p => p.1 == k2) := by
  induction l with
  | nil => by_cases h : k2 = k <;> simp [h]
  | cons p t ih =>
    by_cases h1 : p.1 = k
    · rw [List.filter_cons_of_neg (by simp [h1]), ih]
      by_cases h2 : k2 = k
      · simp [h2]
      · rw [if_neg h2, if_neg h2, List.find?_cons_of_neg _ (by simp; omega)]
    · rw [List.filter_cons_of_pos (by simp [h1])]
      by_cases h2 : p.1 = k2
      · rw [List.find?_cons_of_pos _ (by simp [h2]), if_neg (by omega),
          List.find?_cons_of_pos _ (by simp [h2])]
      · rw [List.find?_cons_of_neg _ (by simp [h2]), ih]
        by_cases h3 : k2 = k
        · simp [h3]
        · rw [if_neg h3, if_neg h3, List.find?_cons_of_neg _ (by simp [h2])]

/-- Helper: `Backend.get` after `Backend.remove`. -/
theorem Backend.get_remove (b : Backend α) (k k2 : Nat) :
    ((b.remove k).2).get k2 = if k2 = k then none else b.get k2 := by
  unfold Backend.remove Backend.get
  simp only
  rw [find?_filter_ne]
  by_cases h : k2 = k <;> simp [h]

/-- Helper: `Backend.get` after an intrinsic insert. -/
theorem Backend.get_insert2 (b : Backend α) (e : α) (k2 : Nat) :
    ((b.insert e).2).get k2 = (b.get k2).or (if k2 = b.next then some e else none) := by
  unfold Backend.insert Backend.get
  simp only
  rw [List.find?_append]
  cases hf : b.entries.find? (fun p => p.1 == k2) with
  | some p => simp [hf]
  | none =>
    by_cases h : k2 = b.next
    · simp [hf, h]
    · simp [hf, h, Ne.symm h]

/-- Helper: `modify` preserves well-formedness. -/
theorem Backend.wf_modify (b : Backend α) (k : Nat) (f : α → α) (h : b.WF) :
    (b.modify k f).WF := by
  obtain ⟨hnd, hlt⟩ := h
  have hkeys : (b.modify k f).entries.map Prod.fst = b.entries.map Prod.fst := by
    unfold Backend.modify
    simp only
    rw [List.map_map]
    apply List.map_congr_left
    intro p hp
    by_cases hp1 : p.1 = k <;> simp [hp1]
  exact ⟨hkeys ▸ hnd, fun k2 hk2 => hlt k2 (hkeys ▸ hk2)⟩

/-- Helper: `remove` preserves well-formedness. -/
theorem Backend.wf_remove (b : Backend α) (k : Nat) (h : b.WF) : ((b.remove k).2).WF := by
  obtain ⟨hnd, hlt⟩ := h
  constructor
  · have hs : List.Sublist (((b.remove k).2).entries.map Prod.fst) (b.entries.map Prod.fst) := by
      unfold Backend.remove
      exact (List.filter_sublist _).map Prod.fst
    exact hnd.sublist hs
  · intro k2 hk2
    apply hlt
    unfold Backend.remove at hk2
    simp only at hk2
    obtain ⟨p, hp, hpk⟩ := List.mem_map.mp hk2
    exact List.mem_map.mpr ⟨p, List.mem_of_mem_filter hp, hpk⟩

/-- Helper: an intrinsic insert preserves well-formedness. -/
theorem Backend.wf_insert (b : Backend α) (e : α) (h : b.WF) : ((b.insert e).2).WF := by
  obtain ⟨hnd, hlt⟩ := h
  constructor
  · unfold Backend.insert
    simp only
    rw [List.map_append]
    refine hnd.append (by simp) ?_
    intro x hx hx2
    simp at hx2
    subst hx2
    exact absurd (hlt _ hx) (by omega)
  · intro k2 hk2
    show k2 < b.next + 1
    unfold Backend.insert at hk2
    simp only at hk2
    rw [List.map_append] at hk2
    rcases List.mem_append.mp hk2 with h1 | h1
    · exact Nat.lt_succ_of_lt (hlt _ h1)
    · simp at h1
      omega

/-- Helper: boolean form of non-membership in a cons. -/
theorem not_mem_cons_bool (x k : Nat) (L : List Nat) :
    (!(decide (x ∈ k :: L))) = (!(x == k) && !(decide (x ∈ L))) := by
  by_cases h1 : x = k <;> by_cases h2 : x ∈ L <;> simp [h1, h2]

/-- Helper: splitting a key-complement count at one fresh key. -/
theorem countP_split_key (B : List (Nat × α)) (k : Nat) (L : List Nat) (hkL : k ∉ L) :
    B.countP (fun p => !(decide (p.1 ∈ L)))
      = B.countP (fun p => !(decide (p.1 ∈ k :: L))) + B.countP (fun p => p.1 == k) := by
  induction B with
  | nil => rfl
  | cons p t ih =>
    rw [List.countP_cons, List.countP_cons, List.countP_cons, ih]
    by_cases h : p.1 = k
    · have e1 : (!(decide (p.1 ∈ L))) = true := by simp [h, hkL]
      have e2 : (!(decide (p.1 ∈ k :: L))) = false := by simp [h]
      have e3 : (p.1 == k) = true := by simp [h]
      rw [e1, e2, e3]
      simp
      omega
    · have e3 : (p.1 == k) = false := by simp [h]
      rw [e3]
      by_cases h2 : p.1 ∈ L
      · have e1 : (!(decide (p.1 ∈ L))) = false := by simp [h2]
        have e2 : (!(decide (p.1 ∈ k :: L))) = false := by simp [h2]
        rw [e1, e2]
        simp
      · have e1 : (!(decide (p.1 ∈ L))) = true := by simp [h2]
        have e2 : (!(decide (p.1 ∈ k :: L))) = true := by simp [h, h2]
        rw [e1, e2]
        simp
        omega

/-- Helper: with distinct keys, exactly one entry carries a present
key. -/
theorem countP_key_eq_one (B : List (Nat × α)) (k : Nat)
    (hnd : (B.map Prod.fst).Nodup) (hk : k ∈ B.map Prod.fst) :
    B.countP (fun p => p.1 == k) = 1 := by
  induction B with
  | nil => simp at hk
  | cons p t ih =>
    rw [List.countP_cons]
    rw [List.map_cons, List.nodup_cons] at hnd
    rw [List.map_cons, List.mem_cons] at hk
    by_cases h : p.1 = k
    · have hnot : k ∉ t.map Prod.fst := h ▸ hnd.1
      have hz : t.countP (fun p => p.1 == k) = 0 := by
        rw [List.countP_eq_zero]
        intro q hq
        simp only [beq_iff_eq]
        intro he
        exact hnot (he ▸ List.mem_map_of_mem _ hq)
      simp [h, hz]
    · cases hk with
      | inl h2 => exact absurd h2.symm h
      | inr h2 => simp [h, ih hnd.2 h2]

/-- Helper: a key-dependent filter is unaffected by a key-preserving
entity rewrite. -/
theorem length_filter_map_modify (B : List (Nat × α)) (a : Nat) (f : α → α) (q : Nat → Bool) :
    ((B.map (fun p => if p.1 == a then (p.1, f p.2) else p)).filter (fun p => q p.1)).length
      = (B.filter (fun p => q p.1)).length := by
  rw [List.filter_map, List.length_map]
  congr 1
  apply List.filter_congr
  intro p hp
  by_cases h : p.1 = a <;> simp [h]

/-- Helper: the commit step for a mutation carrying an entity is an
upsert. -/
theorem commitStep_entity (b : Backend α) (k : Nat) (m : Mutation α) (e : α)
    (h : m.asEntity = some e) :
    (Journaled.commitStep b k m).1
      = match b.get k with
        | some _ => b.set k e
        | none => (b.insert e).2 := by
  cases m with
  | remove => simp [Mutation.asEntity] at h
  | insert e2 =>
    simp only [Mutation.asEntity, Option.some_inj] at h
    subst h
    cases hg : b.get k <;> simp [Journaled.commitStep, hg]
  | write e2 =>
    simp only [Mutation.asEntity, Option.some_inj] at h
    subst h
    cases hg : b.get k <;> simp [Journaled.commitStep, hg]

/-- Helper: appending one log entry extends the key list exactly when
the key is new. -/
theorem logKeys_append_single (log : List (Nat × Mutation α)) (k : Nat) (m : Mutation α) :
    logKeys (log ++ [(k, m)])
      = if k ∈ logKeys log then logKeys log else logKeys log ++ [k] := by
  induction log with
  | nil => simp [logKeys]
  | cons p t ih =>
    obtain ⟨k0, m0⟩ := p
    show logKeys ((k0, m0) :: (t ++ [(k, m)]))
      = if k ∈ logKeys ((k0, m0) :: t) then _ else _
    by_cases h : k ∈ logKeys t
    · simp only [logKeys, ih, if_pos h]
      rw [if_pos]
      by_cases h2 : k = k0
      · exact List.mem_cons.mpr (Or.inl h2)
      · exact List.mem_cons.mpr (Or.inr (List.mem_filter.mpr ⟨h, by simp [h2]⟩))
    · by_cases h2 : k = k0
      · have hmem : k ∈ logKeys ((k0, m0) :: t) := by
          simp [logKeys, h2]
        rw [if_pos hmem]
        simp only [logKeys, ih, if_neg h]
        rw [List.filter_append]
        simp [h2]
      · have hmem : k ∉ logKeys ((k0, m0) :: t) := by
          simp only [logKeys, List.mem_cons, List.mem_filter]
          push_neg
          exact ⟨h2, fun hk _ => absurd hk h⟩
        rw [if_neg hmem]
        simp only [logKeys, ih, if_neg h]
        rw [List.filter_append]
        simp [h2]

/-- Helper: appending a log entry for a visible key preserves the
session invariant. -/
theorem inv_log_append_visible (j : Journaled α) (hinv : Inv j) (k : Nat) (m : Mutation α)
    (hvis : (j.get k).isSome = true) :
    Inv ⟨j.storage, j.log ++ [(k, m)], j.synth⟩ := by
  obtain ⟨hwf, hlt, hfil⟩ := hinv
  refine ⟨hwf, hlt, ?_⟩
  show (logKeys (j.log ++ [(k, m)])).filter _ = _
  rw [logKeys_append_single]
  by_cases h : k ∈ logKeys j.log
  · rw [if_pos h]
    exact hfil
  · have hlm : lastMutation j.log k = none := lastMutation_eq_none_of_not_mem _ _ h
    have hst : (j.storage.get k).isSome = true := by
      unfold Journaled.get at hvis
      rw [hlm] at hvis
      exact hvis
    rw [if_neg h, List.filter_append]
    have hsingle : ([k].filter (fun k2 => (j.storage.get k2).isNone)) = [] := by
      simp [List.filter_cons]
      cases hg : j.storage.get k with
      | none => rw [hg] at hst; simp at hst
      | some v => simp
    rw [hsingle, List.append_nil]
    exact hfil

/-- Helper: a journaled insert preserves the session invariant. -/
theorem inv_insert (j : Journaled α) (hinv : Inv j) (e : α) : Inv (j.insert e).2 := by
  obtain ⟨hwf, hlt, hfil⟩ := hinv
  refine ⟨hwf, by show j.storage.next < j.synth + 1; omega, ?_⟩
  show (logKeys (j.log ++ [(j.synth, .insert e)])).filter
      (fun k => (j.storage.get k).isNone)
    = List.range' (j.storage.next + 1) (j.synth + 1 - (j.storage.next + 1))
  rw [logKeys_append_single]
  have habs : j.storage.get j.synth = none := by
    rw [Backend.get_eq_none_iff]
    intro p hp he
    have := hwf.2 p.1 (List.mem_map_of_mem _ hp)
    omega
  have hns : j.synth ∉ logKeys j.log := by
    intro hmem
    have hm2 : j.synth ∈ (logKeys j.log).filter (fun k => (j.storage.get k).isNone) :=
      List.mem_filter.mpr ⟨hmem, by simp [habs]⟩
    rw [hfil] at hm2
    have := (List.mem_range'_1.mp hm2).2
    omega
  rw [if_neg hns, List.filter_append]
  have hsingle : ([j.synth].filter (fun k2 => (j.storage.get k2).isNone)) = [j.synth] := by
    simp [List.filter_cons, habs]
  rw [hsingle, hfil]
  have harith : j.synth + 1 - (j.storage.next + 1) = (j.synth - (j.storage.next + 1)) + 1 := by
    omega
  rw [harith, List.range'_concat]
  have hval : j.storage.next + 1 + 1 * (j.synth - (j.storage.next + 1)) = j.synth := by
    omega
  rw [hval]

/-- Helper: the session invariant holds in every reachable state. -/
theorem reach_inv (j : Journaled α) (h : Reach j) : Inv j := by
  induction h with
  | base b hwf =>
    refine ⟨hwf, Nat.lt_succ_self _, ?_⟩
    simp [journalNew, logKeys]
  | stepInsert j2 e hr ih => exact inv_insert j2 ih e
  | stepGetMut j2 k hr ih =>
    cases hg : j2.get k with
    | none =>
      have h2 : (j2.getMut k).2 = j2 := by simp [Journaled.getMut, hg]
      rw [h2]
      exact ih
    | some e =>
      have h2 : (j2.getMut k).2 = ⟨j2.storage, j2.log ++ [(k, .write e)], j2.synth⟩ := by
        simp [Journaled.getMut, hg]
      rw [h2]
      exact inv_log_append_visible j2 ih k _ (by simp [hg])
  | stepWrite j2 k e hr ih =>
    cases hg : j2.get k with
    | none =>
      have h2 : j2.writeThrough k e = j2 := by simp [Journaled.writeThrough, hg]
      rw [h2]
      exact ih
    | some v =>
      have h2 : j2.writeThrough k e = ⟨j2.storage, j2.log ++ [(k, .write e)], j2.synth⟩ := by
        simp [Journaled.writeThrough, hg]
      rw [h2]
      exact inv_log_append_visible j2 ih k _ (by simp [hg])
  | stepRemove j2 k hr hvis ih =>
    exact inv_log_append_visible j2 ih k _ hvis

/-- Helper: the backend component of `commit_and_rekey` is the plain
commit fold. -/
theorem commitAndRekey_fst (j : Journaled α) :
    (Journaled.commitAndRekey j).1 = commitFold j.log j.storage (logKeys j.log) := by
  suffices h : ∀ (L : List Nat) (b : Backend α) (rk : List (Nat × Nat)),
      (L.foldl (fun acc k =>
          match lastMutation j.log k with
          | some m =>
            ((Journaled.commitStep acc.1 k m).1, acc.2 ++ [(k, (Journaled.commitStep acc.1 k m).2)])
          | none => acc) (b, rk)).1 = commitFold j.log b L by
    exact h (logKeys j.log) j.storage []
  intro L
  induction L with
  | nil => intro b rk; rfl
  | cons k L ih =>
    intro b rk
    rw [List.foldl_cons]
    cases hm : lastMutation j.log k with
    | some m =>
      simp only [hm]
      rw [ih]
      simp [commitFold, hm]
    | none =>
      simp only [hm]
      rw [ih]
      simp [commitFold, hm]

/-- Helper: length accounting of one entity-carrying commit step,
followed by the rest of the fold. -/
theorem commitFold_len_step_entity
    (log : List (Nat × Mutation α)) (L : List Nat) (b : Backend α) (k : Nat)
    (m : Mutation α) (e : α)
    (hme : m.asEntity = some e)
    (hm : lastMutation log k = some m)
    (hknotL : k ∉ L)
    (hndL : L.Nodup)
    (hsomeL : ∀ k2 ∈ L, (lastMutation log k2).isSome = true)
    (hwf : b.WF)
    (hbound : ∀ k2 ∈ k :: L, b.get k2 = none → b.next < k2)
    (hpw : ((k :: L).filter (fun k2 => (b.get k2).isNone)).Pairwise (· < ·))
    (ih : ∀ (b2 : Backend α), L.Nodup → (∀ k2 ∈ L, (lastMutation log k2).isSome = true) →
      b2.WF → (∀ k2 ∈ L, b2.get k2 = none → b2.next < k2) →
      ((L.filter (fun k2 => (b2.get k2).isNone)).Pairwise (· < ·)) →
      (commitFold log b2 L).len
        = (b2.entries.filter (fun p => !(decide (p.1 ∈ L)))).length
          + L.countP (fun k2 => ((lastMutation log k2).bind Mutation.asEntity).isSome)) :
    (commitFold log (Journaled.commitStep b k m).1 L).len
      = (b.entries.filter (fun p => !(decide (p.1 ∈ k :: L)))).length
        + (k :: L).countP (fun k2 => ((lastMutation log k2).bind Mutation.asEntity).isSome) := by
  rw [commitStep_entity b k m e hme]
  have hcount : (k :: L).countP (fun k2 => ((lastMutation log k2).bind Mutation.asEntity).isSome)
      = L.countP (fun k2 => ((lastMutation log k2).bind Mutation.asEntity).isSome) + 1 := by
    rw [List.countP_cons, hm]
    simp [hme]
  rw [hcount]
  cases hg : b.get k with
  | some v =>
    simp only [hg]
    have hget : ∀ k2, k2 ≠ k → ((b.set k e).get k2) = b.get k2 := by
      intro k2 hk2
      unfold Backend.set
      rw [Backend.get_modify, if_neg hk2]
    have hwf1 : (b.set k e).WF := Backend.wf_modify b k _ hwf
    have hbound1 : ∀ k2 ∈ L, (b.set k e).get k2 = none → (b.set k e).next < k2 := by
      intro k2 hk2 hgnone
      rw [hget k2 (by intro he; exact hknotL (he ▸ hk2))] at hgnone
      exact hbound k2 (List.mem_cons_of_mem _ hk2) hgnone
    have hfiltereq : L.filter (fun k2 => ((b.set k e).get k2).isNone)
        = L.filter (fun k2 => (b.get k2).isNone) := by
      apply List.filter_congr
      intro k2 hk2
      rw [hget k2 (by intro he; exact hknotL (he ▸ hk2))]
    have hpw1 : (L.filter (fun k2 => ((b.set k e).get k2).isNone)).Pairwise (· < ·) := by
      rw [hfiltereq]
      have h2 := hpw
      rw [List.filter_cons] at h2
      split at h2
      · exact (List.pairwise_cons.mp h2).2
      · exact h2
    rw [ih (b.set k e) hndL hsomeL hwf1 hbound1 hpw1]
    have hlen1 : ((b.set k e).entries.filter (fun p => !(decide (p.1 ∈ L)))).length
        = (b.entries.filter (fun p => !(decide (p.1 ∈ L)))).length := by
      simp only [Backend.set, Backend.modify]
      exact length_filter_map_modify b.entries k (fun _ => e) (fun x => !(decide (x ∈ L)))
    rw [hlen1]
    rw [← List.countP_eq_length_filter, ← List.countP_eq_length_filter]
    rw [countP_split_key b.entries k L hknotL]
    rw [countP_key_eq_one b.entries k hwf.1 (Backend.get_mem_keys b k v hg)]
    omega
  | none =>
    simp only [hg]
    have hknotB : ∀ p ∈ b.entries, p.1 ≠ k := (Backend.get_eq_none_iff b k).mp hg
    have hnextNotL : b.next ∉ k :: L := by
      intro hmem
      have hgn : b.get b.next = none := by
        rw [Backend.get_eq_none_iff]
        intro p hp he
        have := hwf.2 p.1 (List.mem_map_of_mem _ hp)
        omega
      have := hbound b.next hmem hgn
      omega
    have hkabs : (b.get k).isNone = true := by simp [hg]
    have hpwcons : ((k :: L).filter (fun k2 => (b.get k2).isNone))
        = k :: (L.filter (fun k2 => (b.get k2).isNone)) := by
      rw [List.filter_cons]
      simp [hkabs]
    have hklt : ∀ k2 ∈ L.filter (fun k2 => (b.get k2).isNone), k < k2 := by
      have h2 := hpw
      rw [hpwcons] at h2
      exact (List.pairwise_cons.mp h2).1
    have hget1 : ∀ k2 ∈ L, ((b.insert e).2).get k2 = b.get k2 := by
      intro k2 hk2
      rw [Backend.get_insert2,
        if_neg (by intro he; exact hnextNotL (he ▸ List.mem_cons_of_mem k hk2))]
      cases b.get k2 <;> rfl
    have hwf1 := Backend.wf_insert b e hwf
    have hbound1 : ∀ k2 ∈ L, ((b.insert e).2).get k2 = none → ((b.insert e).2).next < k2 := by
      intro k2 hk2 hgnone
      rw [hget1 k2 hk2] at hgnone
      show b.next + 1 < k2
      have hk2f : k2 ∈ L.filter (fun k3 => (b.get k3).isNone) :=
        List.mem_filter.mpr ⟨hk2, by simp [hgnone]⟩
      have h3 := hklt k2 hk2f
      have h4 := hbound k (List.mem_cons_self _ _) hg
      omega
    have hfiltereq : L.filter (fun k2 => (((b.insert e).2).get k2).isNone)
        = L.filter (fun k2 => (b.get k2).isNone) := by
      apply List.filter_congr
      intro k2 hk2
      rw [hget1 k2 hk2]
    have hpw1 : (L.filter (fun k2 => (((b.insert e).2).get k2).isNone)).Pairwise (· < ·) := by
      rw [hfiltereq]
      have h2 := hpw
      rw [hpwcons] at h2
      exact (List.pairwise_cons.mp h2).2
    rw [ih ((b.insert e).2) hndL hsomeL hwf1 hbound1 hpw1]
    have hlen1 : (((b.insert e).2).entries.filter (fun p => !(decide (p.1 ∈ L)))).length
        = (b.entries.filter (fun p => !(decide (p.1 ∈ L)))).length + 1 := by
      show ((b.entries ++ [(b.next, e)]).filter _).length = _
      rw [List.filter_append, List.length_append]
      have hone : ([(b.next, e)].filter (fun p => !(decide (p.1 ∈ L)))).length = 1 := by
        have hnl : b.next ∉ L := fun hmem => hnextNotL (List.mem_cons_of_mem _ hmem)
        simp [List.filter_cons, hnl]
      rw [hone]
    rw [hlen1]
    have hfeq : (b.entries.filter (fun p => !(decide (p.1 ∈ L))))
        = (b.entries.filter (fun p => !(decide (p.1 ∈ k :: L)))) := by
      apply List.filter_congr
      intro p hp
      rw [not_mem_cons_bool]
      have hpe : (p.1 == k) = false := by simp [hknotB p hp]
      rw [hpe]
      simp
    rw [hfeq]
    omega

/-- Helper: length accounting of the whole commit fold under the
no-collision conditions established by the session invariant. -/
theorem commitFold_len (log : List (Nat × Mutation α)) :
    ∀ (L : List Nat) (b : Backend α),
      L.Nodup →
      (∀ k ∈ L, (lastMutation log k).isSome = true) →
      b.WF →
      (∀ k ∈ L, b.get k = none → b.next < k) →
      ((L.filter (fun k => (b.get k).isNone)).Pairwise (· < ·)) →
      (commitFold log b L).len
        = (b.entries.filter (fun p => !(decide (p.1 ∈ L)))).length
          + L.countP (fun k => ((lastMutation log k).bind Mutation.asEntity).isSome) := by
  intro L
  induction L with
  | nil =>
    intro b _ _ _ _ _
    simp [commitFold, Backend.len]
  | cons k L ih =>
    intro b hnd hsome hwf hbound hpw
    obtain ⟨m, hm⟩ := Option.isSome_iff_exists.mp (hsome k (List.mem_cons_self _ _))
    have hknotL : k ∉ L := (List.nodup_cons.mp hnd).1
    have hndL : L.Nodup := (List.nodup_cons.mp hnd).2
    have hsomeL : ∀ k2 ∈ L, (lastMutation log k2).isSome = true :=
      fun k2 hk2 => hsome k2 (List.mem_cons_of_mem _ hk2)
    have hfold : commitFold log b (k :: L) = commitFold log (Journaled.commitStep b k m).1 L := by
      simp [commitFold, List.foldl_cons, hm]
    rw [hfold]
    cases m with
    | remove =>
      have hb1 : (Journaled.commitStep b k Mutation.remove).1 = (b.remove k).2 := rfl
      rw [hb1]
      have hget : ∀ k2 ∈ L, ((b.remove k).2).get k2 = b.get k2 := by
        intro k2 hk2
        rw [Backend.get_remove, if_neg (by intro he; exact hknotL (he ▸ hk2))]
      have hboundL : ∀ k2 ∈ L, ((b.remove k).2).get k2 = none → ((b.remove k).2).next < k2 := by
        intro k2 hk2 hg
        rw [hget k2 hk2] at hg
        exact hbound k2 (List.mem_cons_of_mem _ hk2) hg
      have hfiltereq : L.filter (fun k2 => (((b.remove k).2).get k2).isNone)
          = L.filter (fun k2 => (b.get k2).isNone) := by
        apply List.filter_congr
        intro k2 hk2
        rw [hget k2 hk2]
      have hpwL : (L.filter (fun k2 => (((b.remove k).2).get k2).isNone)).Pairwise (· < ·) := by
        rw [hfiltereq]
        have h2 := hpw
        rw [List.filter_cons] at h2
        split at h2
        · exact (List.pairwise_cons.mp h2).2
        · exact h2
      rw [ih ((b.remove k).2) hndL hsomeL (Backend.wf_remove b k hwf) hboundL hpwL]
      have hentries : ((b.remove k).2).entries = b.entries.filter (fun p => !(p.1 == k)) := rfl
      rw [hentries, List.filter_filter]
      have hc0 : (((lastMutation log k).bind Mutation.asEntity).isSome) = false := by
        rw [hm]
        rfl
      have hfc : (b.entries.filter (fun a => !(decide (a.1 ∈ L)) && !(a.1 == k)))
          = (b.entries.filter (fun p => !(decide (p.1 ∈ k :: L)))) := by
        apply List.filter_congr
        intro p hp
        rw [not_mem_cons_bool]
        exact Bool.and_comm _ _
      rw [hfc, List.countP_cons, hc0]
      simp
    | insert e =>
      exact commitFold_len_step_entity log L b k _ e rfl hm hknotL hndL hsomeL hwf hbound hpw ih
    | write e =>
      exact commitFold_len_step_entity log L b k _ e rfl hm hknotL hndL hsomeL hwf hbound hpw ih

/-- C4 (amended): in every state of a slot-backed journal reachable
when `remove` and `get_mut` only involve visible keys — so every logged
key absent from the backend was synthesized by this journal — the number
of entries yielded by the journal's `iter` before commit equals the
number of entries in the backend after `commit_and_rekey`. -/
theorem iter_count_matches_commit_count (j : Journaled α) (h : Reach j) :
    (Journaled.iter j).length = ((Journaled.commitAndRekey j).1).len := by
  obtain ⟨hwf, hlt, hfil⟩ := reach_inv j h
  rw [commitAndRekey_fst]
  have hbound : ∀ k ∈ logKeys j.log, j.storage.get k = none → j.storage.next < k := by
    intro k hk hg
    have hm2 : k ∈ (logKeys j.log).filter (fun k2 => (j.storage.get k2).isNone) :=
      List.mem_filter.mpr ⟨hk, by simp [hg]⟩
    rw [hfil] at hm2
    have := (List.mem_range'_1.mp hm2).1
    omega
  have hpw : ((logKeys j.log).filter (fun k => (j.storage.get k).isNone)).Pairwise (· < ·) := by
    rw [hfil]
    exact List.pairwise_lt_range' _ _
  rw [commitFold_len j.log (logKeys j.log) j.storage (logKeys_nodup _)
    (fun k hk => lastMutation_isSome_of_mem _ _ hk) hwf hbound hpw]
  unfold Journaled.iter
  rw [List.length_append]
  congr 1
  · congr 1
    apply List.filter_congr
    intro p hp
    rw [hasLogged_eq]
  · rw [List.length_filterMap_eq_countP]
    apply List.countP_congr
    intro k hk
    cases hlm : lastMutation j.log k with
    | none => simp
    | some m => cases m <;> simp [Mutation.asEntity]

/-- Witness for the amended count equality at a concrete visible-keys
session (an insert followed by a remove of the synthesized key). -/
theorem iter_count_matches_commit_count_witness :
    (Journaled.iter jFixCount).length = ((Journaled.commitAndRekey jFixCount).1).len :=
  iter_count_matches_commit_count jFixCount
    (Reach.stepRemove _ 2
      (Reach.stepInsert _ 7 (Reach.base bFixCount ⟨by decide, by decide⟩))
      (by decide))

end Plexus
